import Mathlib

/-!
Verification of the Blackjack TCP game server (Gr3dn/ups, `src/server`).

This file gives a shallow embedding of the server's pure core — cards, the
deck (`deck_init` / `deck_shuffle` / `deck_draw`), the hand evaluator
`hand_value`, the in-match command dispatch of `lobby_game_thread`, the
settlement code at `end_game`, `is_back_request_for_name`, the C45 framing
helpers of `protocol.c`, `start_game_if_ready`, and the active-name registry
of `server.c` — and proves properties of these definitions.

Strings from the C code are modelled as `List Char`; NUL-terminated C strings
contain no NUL byte, and buffers are modelled by their string contents.
Randomness (`rand()`) is modelled by an explicit stream `Nat → Nat` of
generator outputs; the C code takes these modulo the required bound, and so
do the Lean definitions.
-/

namespace Ups

/-! ## Cards (game.h: `Card`, ranks 1..13, suits 0..3) -/

/-- A playing card, as in `game.h`: `rank` 1..13 (1 = Ace), `suit` 0..3. -/
structure Card where
  rank : Nat
  suit : Nat
deriving DecidableEq, Repr

/-- The 52 cards in the order produced by `deck_init` (game.c:69):
suit-major, ranks 1..13 inside each suit. -/
def deck_init_cards : List Card :=
  (List.range 4).flatMap (fun s => (List.range 13).map (fun r => ⟨r + 1, s⟩))

/-! ## Hand evaluation (game.c:267 `hand_value`) -/

/-- Points first added for a rank in the summation loop of `hand_value`:
ace = 11, 10/J/Q/K = 10, otherwise the rank itself. -/
def card_points (r : Nat) : Nat :=
  if r = 1 then 11 else if 10 ≤ r then 10 else r

/-- Number of aces in a hand (the `aces` counter of `hand_value`). -/
def aces_in (hand : List Card) : Nat :=
  hand.countP (fun c => c.rank = 1)

/-- The sum accumulated by the first loop of `hand_value` (aces as 11). -/
def raw_sum (hand : List Card) : Nat :=
  (hand.map (fun c => card_points c.rank)).sum

/-- The demotion loop of `hand_value`:
`while (sum > 21 && aces > 0) { sum -= 10; aces--; }`. -/
def demote_loop : Nat → Nat → Nat
  | s, 0 => s
  | s, a + 1 => if 21 < s then demote_loop (s - 10) a else s

/-- `hand_value` (game.c:267): sum with ace = 11 and faces = 10, then demote
aces while the total exceeds 21. -/
def hand_value (hand : List Card) : Nat :=
  demote_loop (raw_sum hand) (aces_in hand)

/-- Modelled from the spec (§3, §8): the value of a card when its ace counts
as 1 instead of 11. -/
def card_low (r : Nat) : Nat :=
  if r = 1 then 1 else if 10 ≤ r then 10 else r

/-- Modelled from the spec: the minimum achievable value of a hand (all aces
demoted to 1). -/
def low_sum (hand : List Card) : Nat :=
  (hand.map (fun c => card_low c.rank)).sum

/-- Modelled from the spec: the values achievable by choosing, for each ace,
whether it counts 1 or 11. -/
def achievable (hand : List Card) (v : Nat) : Prop :=
  ∃ k, k ≤ aces_in hand ∧ v = low_sum hand + 10 * k

/-! ## Deck (game.c:69 `deck_init`, game.c:86 `deck_shuffle`, game.c:102 `deck_draw`) -/

/-- A deck as in `game.h`: the 52-card array and the draw cursor `top`. -/
structure Deck where
  cards : List Card
  top : Nat
deriving DecidableEq, Repr

/-- The default card used to totalize out-of-range list reads; all indices
used by the code are in range. -/
def defCard : Card := ⟨0, 0⟩

/-- One swap of the Fisher–Yates loop body of `deck_shuffle`:
`tmp = cards[i]; cards[i] = cards[j]; cards[j] = tmp`. -/
def list_swap {α : Type} (d : α) (l : List α) (i j : Nat) : List α :=
  (l.set i (l.getD j d)).set j (l.getD i d)

/-- `deck_init` (game.c:69): the ordered deck with cursor 0. -/
def deck_init : Deck := ⟨deck_init_cards, 0⟩

/-- The loop of `deck_shuffle`: `for (i = DECK_SIZE-1; i > 0; --i)
swap(i, rand() % (i+1))`; `rnd` is the stream of `rand()` outputs, indexed by
the loop variable. -/
@[irreducible] def fy_aux (rnd : Nat → Nat) : Nat → List Card → List Card
  | 0, cs => cs
  | i + 1, cs => fy_aux rnd i (list_swap defCard cs (i + 1) (rnd (i + 1) % (i + 2)))

/-- `deck_shuffle` (game.c:86): Fisher–Yates over the whole 52-card array,
then `top = 0`. -/
def deck_shuffle (d : Deck) (rnd : Nat → Nat) : Deck :=
  ⟨fy_aux rnd 51 d.cards, 0⟩

/-- `deck_draw` (game.c:102): reshuffle when the cursor is past the end, then
return `cards[top++]`. -/
def deck_draw (d : Deck) (rnd : Nat → Nat) : Card × Deck :=
  let d' := if 52 ≤ d.top then deck_shuffle d rnd else d
  (d'.cards.getD d'.top defCard, ⟨d'.cards, d'.top + 1⟩)

/-! ## Tokens and line parsing (game.c:52 `is_token`,
game.c:392 `is_back_request_for_name`, game.c:710-764 turn input dispatch) -/

/-- Characters skipped by the `while (*s == ' ' || *s == '\t') s++` loops. -/
def sp_tab (c : Char) : Bool := c == ' ' || c == '\t'

/-- Characters stripped from the end of a line before suffix matching. -/
def line_ws (c : Char) : Bool := c == '\r' || c == '\n' || c == ' ' || c == '\t'

/-- Remove the trailing run of characters satisfying `bad` (the backwards
`for` loops writing `'\0'` in game.c:403 and game.c:415). -/
def strip_trailing (l : List Char) (bad : Char → Bool) : List Char :=
  (l.reverse.dropWhile bad).reverse

/-- `is_token` (game.c:52): the line starts with the token and the next
character is end-of-string, `'\n'`, `'\r'`, space or tab. -/
def is_token (line tok : List Char) : Bool :=
  tok.isPrefixOf line &&
    (match line.drop tok.length with
     | [] => true
     | c :: _ => c == '\n' || c == '\r' || c == ' ' || c == '\t')

/-- The `tmp` buffer of `is_back_request_for_name` after game.c:396-405:
skip the `C45` prefix, skip leading spaces/tabs, truncate the copy to
`READ_BUF - 1 = 255` bytes, strip trailing `\r` `\n` space tab. -/
def back_core (line : List Char) : List Char :=
  strip_trailing (((line.drop 3).dropWhile sp_tab).take 255) line_ws

/-- The candidate name of a back request (game.c:414-417): drop the four
`back` bytes and strip trailing spaces/tabs. -/
def back_name_part (line : List Char) : List Char :=
  strip_trailing ((back_core line).take ((back_core line).length - 4)) sp_tab

/-- `is_back_request_for_name` (game.c:392). Returns 1 for a valid back
request for `expected`, 0 for a line that is not a back request, -1 for a
back request for another (or empty) name. The
`strncmp(tmp, expected_name, 64)` comparison is modelled by equality of the
first 64 characters. -/
def is_back_request_for_name (line expected : List Char) : Int :=
  if expected = [] then 0
  else if ¬ ("C45".data.isPrefixOf line) then 0
  else if (back_core line).length ≤ 4 then 0
  else if (back_core line).drop ((back_core line).length - 4) ≠ "back".data
    then 0
  else if back_name_part line = [] then -1
  else if (back_name_part line).take 64 = expected.take 64 then 1 else -1

/-- How `lobby_game_thread` (game.c:710-764) reacts to one complete line
from the active player. -/
inductive TurnCmd where
  | pong
  | ping
  | yes
  | back
  | hit
  | stand
  | violation
deriving DecidableEq, Repr

/-- The dispatch chain of game.c:715-764 for a line read from the active
player: keep-alive tokens, a late `C45YES`, a back request, then
`strncmp(buf, "C45HIT", 6)` and `strncmp(buf, "C45STAND", 8)` prefix tests;
everything else is a protocol violation. -/
def classify_turn_line (line turnName : List Char) : TurnCmd :=
  if is_token line "C45PONG".data then .pong
  else if is_token line "C45PING".data then .ping
  else if is_token line "C45YES".data then .yes
  else if is_back_request_for_name line turnName = 1 then .back
  else if "C45HIT".data.isPrefixOf line then .hit
  else if "C45STAND".data.isPrefixOf line then .stand
  else .violation

/-! ## The match state machine (game.c:608 `lobby_game_thread`)

Only the data relevant to hands and flags is modelled: the lobby deck, the
two player slots (`hand`, `stood`, `busted`) and whose turn it is
(`false` = slot 0, `true` = slot 1).  Transitions that do not touch these
fields (keep-alive, reconnect waiting, forced-winner bookkeeping) are
omitted: they cannot affect the hand-size invariant. -/

/-- One player slot of a running match (game.h: `Player`, game-relevant
fields). -/
structure PlayerSt where
  hand : List Card
  stood : Bool
  busted : Bool
deriving DecidableEq, Repr

/-- The game-relevant state of a running match. -/
structure MatchState where
  deck : Deck
  pA : PlayerSt
  pB : PlayerSt
  turn : Bool
deriving DecidableEq, Repr

/-- Slot accessor (`L->players[p]`). -/
def player (s : MatchState) : Bool → PlayerSt
  | false => s.pA
  | true => s.pB

/-- Slot update. -/
def set_player (s : MatchState) (p : Bool) (q : PlayerSt) : MatchState :=
  match p with
  | false => { s with pA := q }
  | true => { s with pB := q }

/-- The state after the preparation block of `lobby_game_thread`
(game.c:616-640): hands cleared, two cards dealt to each player in the order
slot 0, slot 1, slot 0, slot 1 (deck positions 0,2 and 1,3), cursor at 4,
slot 0 to move. `cards` is the deck contents after the match-start
`deck_shuffle`. -/
def init_state (cards : List Card) : MatchState :=
  { deck := ⟨cards, 4⟩,
    pA := ⟨[cards.getD 0 defCard, cards.getD 2 defCard], false, false⟩,
    pB := ⟨[cards.getD 1 defCard, cards.getD 3 defCard], false, false⟩,
    turn := false }

/-- The `C45HIT` handler (game.c:729-752): draw, append to the hand, mark
busted when the new value exceeds 21, pass the turn. -/
def hit_step (s : MatchState) (rnd : Nat → Nat) : MatchState :=
  let r := deck_draw s.deck rnd
  let P := player s s.turn
  let nh := P.hand ++ [r.1]
  { set_player s s.turn ⟨nh, P.stood, if 21 < hand_value nh then true else P.busted⟩
      with deck := r.2, turn := !s.turn }

/-- The `C45STAND` handler (game.c:753-758) and the turn-timeout auto-stand
(game.c:768-778): mark stood, pass the turn. -/
def stand_step (s : MatchState) : MatchState :=
  { set_player s s.turn ⟨(player s s.turn).hand, true, (player s s.turn).busted⟩
      with turn := !s.turn }

/-- Skipping a player that already stood or busted (game.c:649-653). -/
def skip_step (s : MatchState) : MatchState :=
  { s with turn := !s.turn }

/-- One transition of the match loop that can touch hands or flags.  A hit
or stand is only processed for the active player, and the turn loop skips a
player that already stood or busted (game.c:644-653), so both are guarded by
`stood = false` and `busted = false`. -/
inductive Step : MatchState → MatchState → Prop where
  | hit (s : MatchState) (rnd : Nat → Nat)
      (hs : (player s s.turn).stood = false)
      (hb : (player s s.turn).busted = false) : Step s (hit_step s rnd)
  | stand (s : MatchState)
      (hs : (player s s.turn).stood = false)
      (hb : (player s s.turn).busted = false) : Step s (stand_step s)
  | skip (s : MatchState)
      (h : (player s s.turn).stood = true ∨ (player s s.turn).busted = true) :
      Step s (skip_step s)

/-- States of a match reachable from the initial deal.  The match-start
`deck_shuffle` makes the deck an arbitrary permutation of the 52 standard
cards. -/
inductive Reachable : MatchState → Prop where
  | init (cards : List Card) (h : List.Perm cards deck_init_cards) :
      Reachable (init_state cards)
  | step {s t : MatchState} (hr : Reachable s) (hs : Step s t) : Reachable t

/-- The match invariant: the deck is a permutation of the standard 52 cards,
the two hands together are exactly the dealt prefix of the deck, the cursor
counts the dealt cards, a non-busted hand is worth at most 21, and hands
hold at most 12 cards. -/
def match_inv (s : MatchState) : Prop :=
  List.Perm s.deck.cards deck_init_cards ∧
  List.Perm (s.pA.hand ++ s.pB.hand) (s.deck.cards.take s.deck.top) ∧
  s.deck.top = s.pA.hand.length + s.pB.hand.length ∧
  (s.pA.busted = false → hand_value s.pA.hand ≤ 21) ∧
  (s.pB.busted = false → hand_value s.pB.hand ≤ 21) ∧
  s.pA.hand.length ≤ 12 ∧ s.pB.hand.length ≤ 12

/-! ## Settlement (game.c:813-835, label `end_game` of `lobby_game_thread`) -/

/-- The data read by the settlement block: names, hands, busted flags and
socket fds of the two slots, and `forced_winner_idx` (-1 when no forced
winner was set). -/
structure GameEnd where
  nameA : List Char
  nameB : List Char
  handA : List Card
  handB : List Card
  bustedA : Bool
  bustedB : Bool
  fdA : Int
  fdB : Int
  forced_winner_idx : Int
deriving DecidableEq, Repr

/-- The outcome of settlement: the two announced values, the winner name,
the formatted result line, and the `(fd, line)` writes performed. -/
structure GameResult where
  va : Int
  vb : Int
  winner : List Char
  line : List Char
  outputs : List (Int × List Char)
deriving DecidableEq, Repr

/-- The settlement block of `lobby_game_thread` (game.c:813-835):
`va = A->busted ? -1 : hand_value(...)`, likewise `vb`; the winner is the
forced winner when `forced_winner_idx` is 0 or 1, else decided by comparing
values, with `PUSH` on a tie; the result line is written to each fd that is
still attached (`fd >= 0`).  The `snprintf` overflow fallback of
game.c:830-833 is not modelled: with names bounded by `MAX_NAME_LEN - 1 = 63`
bytes the line cannot reach the 256-byte buffer limit. -/
def end_game (g : GameEnd) : GameResult :=
  let va : Int := if g.bustedA then -1 else (hand_value g.handA : Int)
  let vb : Int := if g.bustedB then -1 else (hand_value g.handB : Int)
  let winner : List Char :=
    if g.forced_winner_idx = 0 then g.nameA
    else if g.forced_winner_idx = 1 then g.nameB
    else if vb < va then g.nameA
    else if va < vb then g.nameB
    else "PUSH".data
  let line : List Char :=
    "C45RESULT ".data ++ g.nameA ++ [' '] ++ (toString va).data ++ [' ']
      ++ g.nameB ++ [' '] ++ (toString vb).data ++ " WINNER ".data
      ++ winner ++ ['\n']
  { va := va, vb := vb, winner := winner, line := line,
    outputs := (if 0 ≤ g.fdA then [(g.fdA, line)] else [])
      ++ (if 0 ≤ g.fdB then [(g.fdB, line)] else []) }

/-- Settlement after a mid-match disconnect whose reconnect window expired
(game.c:785-811): `player_disconnect_fd` clears the missing player's fd,
`wait_for_reconnect` returns 1, `forced_winner_idx` is set to the other slot
and control falls through to `end_game`.  `missing = false` means slot 0. -/
def timeout_settle (g : GameEnd) (missing : Bool) : GameResult :=
  match missing with
  | false => end_game { g with fdA := -1, forced_winner_idx := 1 }
  | true => end_game { g with fdB := -1, forced_winner_idx := 0 }

/-! ## C45 framing (protocol.c:190 `c45_parse_line`, protocol.c:220
`c45_build_frame`; `C45_MAX_PAYLOAD = 99`) -/

/-- `c45_build_frame` (protocol.c:220): `snprintf(out, _, "C45%02d%s\n",
len, payload)` for payloads of length at most 99, else the error -1 (`none`).
The `out_sz` check is not modelled: the only caller (`send_c45`) always
passes a large-enough buffer. -/
def c45_build_frame (payload : List Char) : Option (List Char) :=
  if payload.length ≤ 99 then
    some ('C' :: '4' :: '5' :: Nat.digitChar (payload.length / 10)
      :: Nat.digitChar (payload.length % 10) :: (payload ++ ['\n']))
  else none

/-- The payload length announced by the two digit characters of a C45 frame
(`(line[3]-'0')*10 + (line[4]-'0')`, protocol.c:198). -/
def c45_len (line : List Char) : Nat :=
  ((line.getD 3 (Char.ofNat 0)).toNat - ('0').toNat) * 10
    + ((line.getD 4 (Char.ofNat 0)).toNat - ('0').toNat)

/-- `c45_parse_line` (protocol.c:190).  `Except.error` carries the C return
codes 0 (not a C45 frame), -2 (bad length digits or length mismatch) and -3
(output buffer of `out_sz` bytes too small); `Except.ok` carries the decoded
payload (return code 1).  `line.getD` past the end yields the NUL terminator,
as in C; `strlen(payload)` is the length of the rest of the line (C strings
hold no NUL byte). -/
def c45_parse_line (line : List Char) (out_sz : Nat) : Except Int (List Char) :=
  if ¬ ("C45".data.isPrefixOf line) then .error 0
  else if ¬ ((line.getD 3 (Char.ofNat 0)).isDigit
      ∧ (line.getD 4 (Char.ofNat 0)).isDigit) then .error (-2)
  else if 99 < c45_len line then .error (-2)
  else if (line.drop 5).length ≠ c45_len line then .error (-2)
  else if out_sz < c45_len line + 1 then .error (-3)
  else .ok (line.drop 5)

/-! ## Lobby start (game.c:325 `start_game_if_ready`) -/

/-- The lobby fields read and written by `start_game_if_ready`
(`LOBBY_SIZE = 2`). -/
structure LobbyCtl where
  player_count : Nat
  is_running : Bool
deriving DecidableEq, Repr

/-- `start_game_if_ready` (game.c:325): under the lobby lock, when the lobby
is not running and holds exactly `LOBBY_SIZE = 2` players, set the running
flag and spawn the match task (the returned `Bool` records whether a task
was spawned). -/
def start_game_if_ready (L : LobbyCtl) : LobbyCtl × Bool :=
  if !L.is_running && L.player_count == 2 then
    ({ L with is_running := true }, true)
  else (L, false)

/-- Total number of match tasks spawned by `n` successive calls of
`start_game_if_ready` on a lobby. -/
def spawn_count : Nat → LobbyCtl → Nat
  | 0, _ => 0
  | n + 1, L =>
      (if (start_game_if_ready L).2 then 1 else 0)
        + spawn_count n (start_game_if_ready L).1

/-! ## Active-name registry (server.c:46-405) -/

/-- One slot of the active-name registry: parallel arrays
`g_active_names` / `g_active_fds` / `g_active_back_req` / `g_active_tokens`
(server.c:50-53). -/
structure RegEntry where
  name : List Char
  fd : Int
  back : Bool
  token : Nat
deriving DecidableEq, Repr

/-- Default entry used to totalize out-of-range reads (all indices produced
by `active_name_find` are in range). -/
def defEntry : RegEntry := ⟨[], -1, false, 0⟩

/-- The registry: the first `g_active_cnt` slots plus the token counter
`g_token_seq` (server.c:54-55, initialized to 1). -/
structure Registry where
  entries : List RegEntry
  seq : Nat
deriving DecidableEq, Repr

/-- The scan of `active_name_find` (server.c:333): index of the first entry
with the given name.  `strncmp(..., MAX_NAME_LEN)` is modelled by equality
(names are at most 63 bytes). -/
def find_first (n : List Char) : List RegEntry → Option Nat
  | [] => none
  | e :: t =>
      if e.name == n then some 0
      else (find_first n t).map (fun k => k + 1)

/-- `active_name_find` (server.c:333). -/
def active_name_find (R : Registry) (n : List Char) : Option Nat :=
  find_first n R.entries

/-- `active_name_has` (server.c:284). -/
def active_name_has (R : Registry) (n : List Char) : Bool :=
  (active_name_find R n).isSome

/-- `active_name_set_fd` (server.c:350): store the fd, assign
`g_token_seq++` as the entry's token, and return that token; return 0 when
the name is absent. -/
def active_name_set_fd (R : Registry) (n : List Char) (fd : Int) :
    Registry × Nat :=
  match active_name_find R n with
  | some i =>
      ({ entries := R.entries.set i
           { R.entries.getD i defEntry with fd := fd, token := R.seq },
         seq := R.seq + 1 }, R.seq)
  | none => (R, 0)

/-- `active_name_remove` (server.c:309): overwrite the found slot with the
last slot and shrink the count by one. -/
def active_name_remove (R : Registry) (n : List Char) : Registry :=
  match active_name_find R n with
  | none => R
  | some i =>
      { R with entries :=
          (R.entries.set i
            (R.entries.getD (R.entries.length - 1) defEntry)).dropLast }

/-- `active_name_remove_if_token` (server.c:366): remove only when the
stored token equals the supplied one. -/
def active_name_remove_if_token (R : Registry) (n : List Char) (t : Nat) :
    Registry :=
  match active_name_find R n with
  | none => R
  | some i =>
      if (R.entries.getD i defEntry).token ≠ t then R
      else active_name_remove R n

/-- Modelled from the spec wording of the back-request wire form, amended by
what the code accepts: `C45`, an optional run of spaces/tabs, the name, an
optional run of spaces/tabs, `back`, and an optional trailing run of line
whitespace. -/
def back_wire_form (line N : List Char) : Prop :=
  ∃ w1 w2 w3 : List Char,
    (∀ c ∈ w1, sp_tab c = true) ∧ (∀ c ∈ w2, sp_tab c = true) ∧
    (∀ c ∈ w3, line_ws c = true) ∧
    line = "C45".data ++ w1 ++ N ++ w2 ++ "back".data ++ w3

/-! ## Theorems -/

theorem card_points_eq_low (r : Nat) :
    card_points r = card_low r + (if r = 1 then 10 else 0) := by
  unfold card_points card_low
  by_cases h1 : r = 1 <;> simp [h1]

theorem raw_sum_eq_low_sum (hand : List Card) :
    raw_sum hand = low_sum hand + 10 * aces_in hand := by
  induction hand with
  | nil => simp [raw_sum, low_sum, aces_in]
  | cons c t ih =>
      simp only [raw_sum, low_sum, aces_in, List.map_cons, List.sum_cons,
        List.countP_cons] at ih ⊢
      rw [card_points_eq_low]
      by_cases h1 : c.rank = 1 <;> simp [h1] <;> omega

theorem demote_loop_le (a : Nat) : ∀ L : Nat, L ≤ 21 →
    demote_loop (L + 10 * a) a ≤ 21 := by
  induction a with
  | zero => intro L h; simpa [demote_loop] using h
  | succ a ih =>
      intro L h
      by_cases hgt : 21 < L + 10 * (a + 1)
      · have : L + 10 * (a + 1) - 10 = L + 10 * a := by omega
        simp only [demote_loop, if_pos hgt, this]
        exact ih L h
      · simp only [demote_loop, if_neg hgt]
        omega

theorem demote_loop_ge (a : Nat) : ∀ L : Nat,
    L ≤ demote_loop (L + 10 * a) a := by
  induction a with
  | zero => intro L; simp [demote_loop]
  | succ a ih =>
      intro L
      by_cases hgt : 21 < L + 10 * (a + 1)
      · have : L + 10 * (a + 1) - 10 = L + 10 * a := by omega
        simp only [demote_loop, if_pos hgt, this]
        exact ih L
      · simp only [demote_loop, if_neg hgt]
        omega

theorem demote_loop_spec_none (a : Nat) : ∀ L : Nat,
    (∀ k, k ≤ a → 21 < L + 10 * k) →
    demote_loop (L + 10 * a) a = L := by
  induction a with
  | zero => intro L _; simp [demote_loop]
  | succ a ih =>
      intro L h
      have hgt : 21 < L + 10 * (a + 1) := h (a + 1) le_rfl
      have : L + 10 * (a + 1) - 10 = L + 10 * a := by omega
      simp only [demote_loop, if_pos hgt, this]
      exact ih L (fun k hk => h k (Nat.le_succ_of_le hk))

theorem demote_loop_spec_max (a : Nat) : ∀ L : Nat,
    (∃ k, k ≤ a ∧ L + 10 * k ≤ 21) →
    demote_loop (L + 10 * a) a ≤ 21 ∧
      (∃ k, k ≤ a ∧ demote_loop (L + 10 * a) a = L + 10 * k) ∧
      (∀ k, k ≤ a → L + 10 * k ≤ 21 → L + 10 * k ≤ demote_loop (L + 10 * a) a) := by
  induction a with
  | zero =>
      intro L h
      obtain ⟨k, hk, hle⟩ := h
      interval_cases k
      refine ⟨by simpa [demote_loop] using hle, ⟨0, le_rfl, by simp [demote_loop]⟩, ?_⟩
      intro k hk _
      interval_cases k
      simp [demote_loop]
  | succ a ih =>
      intro L h
      by_cases hgt : 21 < L + 10 * (a + 1)
      · have heq : L + 10 * (a + 1) - 10 = L + 10 * a := by omega
        simp only [demote_loop, if_pos hgt, heq]
        obtain ⟨k, hk, hle⟩ := h
        have hk' : k ≤ a := by
          rcases Nat.lt_or_ge k (a + 1) with h1 | h1
          · omega
          · exfalso; have : k = a + 1 := by omega
            subst this; omega
        obtain ⟨h1, ⟨k0, hk0, hv⟩, h3⟩ := ih L ⟨k, hk', hle⟩
        refine ⟨h1, ⟨k0, Nat.le_succ_of_le hk0, hv⟩, ?_⟩
        intro j hj hjle
        have hj' : j ≤ a := by
          rcases Nat.lt_or_ge j (a + 1) with h2 | h2
          · omega
          · exfalso; have : j = a + 1 := by omega
            subst this; omega
        exact h3 j hj' hjle
      · simp only [demote_loop, if_neg hgt]
        refine ⟨by omega, ⟨a + 1, le_rfl, rfl⟩, ?_⟩
        intro j hj _
        omega

/-- Claim C1: `hand_value` sums ranks with J/Q/K counted as 10 and aces as 11,
then demotes aces while the value exceeds 21; equivalently it returns the
maximum achievable value that is at most 21 when one exists (each ace chosen
as 1 or 11), else the minimum achievable value. -/
theorem claim_C1 (hand : List Card)
    (hranks : ∀ c ∈ hand, 1 ≤ c.rank ∧ c.rank ≤ 13) :
    hand_value hand = demote_loop (raw_sum hand) (aces_in hand) ∧
    ((∃ v, achievable hand v ∧ v ≤ 21) →
       achievable hand (hand_value hand) ∧ hand_value hand ≤ 21 ∧
       ∀ v, achievable hand v → v ≤ 21 → v ≤ hand_value hand) ∧
    ((¬ ∃ v, achievable hand v ∧ v ≤ 21) →
       hand_value hand = low_sum hand ∧
       ∀ v, achievable hand v → hand_value hand ≤ v) := by
  have hval : hand_value hand
      = demote_loop (low_sum hand + 10 * aces_in hand) (aces_in hand) := by
    unfold hand_value
    rw [raw_sum_eq_low_sum]
  refine ⟨rfl, ?_, ?_⟩
  · rintro ⟨v, ⟨k, hk, rfl⟩, hle⟩
    obtain ⟨h1, ⟨k0, hk0, hv⟩, h3⟩ :=
      demote_loop_spec_max (aces_in hand) (low_sum hand) ⟨k, hk, hle⟩
    refine ⟨⟨k0, hk0, by rw [hval, hv]⟩, by rw [hval]; exact h1, ?_⟩
    rintro v ⟨j, hj, rfl⟩ hvle
    rw [hval]
    exact h3 j hj hvle
  · intro hnone
    have hall : ∀ k, k ≤ aces_in hand → 21 < low_sum hand + 10 * k := by
      intro k hk
      by_contra hcon
      exact hnone ⟨low_sum hand + 10 * k, ⟨k, hk, rfl⟩, by omega⟩
    refine ⟨by rw [hval]; exact demote_loop_spec_none _ _ hall, ?_⟩
    rintro v ⟨j, hj, rfl⟩
    rw [hval, demote_loop_spec_none _ _ hall]
    omega

theorem fy_aux_zero (rnd : Nat → Nat) (cs : List Card) :
    fy_aux rnd 0 cs = cs := by
  rw [fy_aux]

theorem fy_aux_succ (rnd : Nat → Nat) (i : Nat) (cs : List Card) :
    fy_aux rnd (i + 1) cs
      = fy_aux rnd i (list_swap defCard cs (i + 1) (rnd (i + 1) % (i + 2))) := by
  rw [fy_aux]

theorem deck_shuffle_cards (d : Deck) (rnd : Nat → Nat) :
    (deck_shuffle d rnd).cards = fy_aux rnd 51 d.cards := rfl

theorem deck_shuffle_top (d : Deck) (rnd : Nat → Nat) :
    (deck_shuffle d rnd).top = 0 := rfl

theorem set_getD_self {α : Type} (l : List α) (i : Nat) (d : α) :
    l.set i (l.getD i d) = l := by
  induction l generalizing i with
  | nil => simp
  | cons x t ih =>
      cases i with
      | zero => simp [List.getD]
      | succ j => simp only [List.set, List.getD_cons_succ, ih]

theorem cons_set_perm {α : Type} (l : List α) (k : Nat) (x d : α)
    (h : k < l.length) :
    List.Perm (l.getD k d :: l.set k x) (x :: l) := by
  induction l generalizing k with
  | nil => simp at h
  | cons y t ih =>
      cases k with
      | zero =>
          simp only [List.getD_cons_zero, List.set_cons_zero]
          exact List.Perm.swap x y t
      | succ m =>
          have hm : m < t.length := by simpa using h
          simp only [List.getD_cons_succ, List.set_cons_succ]
          have s1 : List.Perm (t.getD m d :: y :: t.set m x)
              (y :: t.getD m d :: t.set m x) := List.Perm.swap y (t.getD m d) _
          have s2 : List.Perm (y :: t.getD m d :: t.set m x) (y :: x :: t) :=
            (ih m hm).cons y
          have s3 : List.Perm (y :: x :: t) (x :: y :: t) := List.Perm.swap x y t
          exact s1.trans (s2.trans s3)

theorem list_swap_perm {α : Type} (d : α) (l : List α) (i j : Nat)
    (hi : i < l.length) (hj : j < l.length) :
    List.Perm (list_swap d l i j) l := by
  induction l generalizing i j with
  | nil => simp at hi
  | cons x t ih =>
      cases i with
      | zero =>
          cases j with
          | zero => simp [list_swap, List.getD]
          | succ k =>
              have hk : k < t.length := by simpa using hj
              simp only [list_swap, List.getD_cons_zero, List.getD_cons_succ,
                List.set_cons_zero, List.set_cons_succ]
              exact cons_set_perm t k x d hk
      | succ m =>
          have hm : m < t.length := by simpa using hi
          cases j with
          | zero =>
              simp only [list_swap, List.getD_cons_zero, List.getD_cons_succ,
                List.set_cons_zero, List.set_cons_succ]
              exact cons_set_perm t m x d hm
          | succ k =>
              have hk : k < t.length := by simpa using hj
              simp only [list_swap, List.getD_cons_succ, List.set_cons_succ]
              exact (ih m k hm hk).cons x

theorem list_swap_length {α : Type} (d : α) (l : List α) (i j : Nat) :
    (list_swap d l i j).length = l.length := by
  simp [list_swap]

theorem fy_aux_perm (rnd : Nat → Nat) (i : Nat) : ∀ cs : List Card,
    i < cs.length → List.Perm (fy_aux rnd i cs) cs := by
  induction i with
  | zero =>
      intro cs _
      rw [fy_aux_zero]
  | succ m ih =>
      intro cs h
      have hlen : (list_swap defCard cs (m + 1) (rnd (m + 1) % (m + 2))).length
          = cs.length := list_swap_length ..
      have hj : rnd (m + 1) % (m + 2) < cs.length :=
        lt_of_lt_of_le (Nat.mod_lt _ (by omega)) (by omega)
      have h1 : List.Perm
          (fy_aux rnd m (list_swap defCard cs (m + 1) (rnd (m + 1) % (m + 2))))
          (list_swap defCard cs (m + 1) (rnd (m + 1) % (m + 2))) :=
        ih _ (by omega)
      have h2 : List.Perm (list_swap defCard cs (m + 1) (rnd (m + 1) % (m + 2))) cs :=
        list_swap_perm defCard cs (m + 1) _ h hj
      rw [fy_aux_succ]
      exact h1.trans h2

theorem list_swap_self {α : Type} (d : α) (l : List α) (i : Nat) :
    list_swap d l i i = l := by
  unfold list_swap
  rw [List.set_set, set_getD_self]

theorem fy_aux_id (i : Nat) : ∀ cs : List Card,
    fy_aux (fun k => k) i cs = cs := by
  induction i with
  | zero =>
      intro cs
      rw [fy_aux_zero]
  | succ m ih =>
      intro cs
      have hmod : (m + 1) % (m + 2) = m + 1 := Nat.mod_eq_of_lt (by omega)
      simp only [fy_aux_succ, hmod, list_swap_self]
      exact ih cs

theorem deck_init_cards_length : deck_init_cards.length = 52 := by decide

theorem deck_init_cards_nodup : deck_init_cards.Nodup := by decide

theorem mem_deck_init_cards {c : Card} (h : c ∈ deck_init_cards) :
    1 ≤ c.rank ∧ c.rank ≤ 13 ∧ c.suit ≤ 3 := by
  simp only [deck_init_cards, List.mem_flatMap, List.mem_map, List.mem_range] at h
  obtain ⟨s, hs, r, hr, rfl⟩ := h
  simp only
  omega

theorem card_low_le_ten (r : Nat) : card_low r ≤ 10 := by
  unfold card_low
  split_ifs <;> omega

theorem hand_value_ge_low (h : List Card) : low_sum h ≤ hand_value h := by
  unfold hand_value
  rw [raw_sum_eq_low_sum]
  exact demote_loop_ge (aces_in h) (low_sum h)

theorem hand_value_le_21_of_low (h : List Card) (hl : low_sum h ≤ 21) :
    hand_value h ≤ 21 := by
  unfold hand_value
  rw [raw_sum_eq_low_sum]
  exact demote_loop_le (aces_in h) (low_sum h) hl

theorem low_sum_lower (h : List Card) (hr : ∀ c ∈ h, 1 ≤ c.rank) :
    3 * h.length ≤
      low_sum h + 2 * h.countP (fun c => c.rank = 1)
        + h.countP (fun c => c.rank = 2) := by
  induction h with
  | nil => simp [low_sum]
  | cons c t ih =>
      have hc := hr c (List.mem_cons_self c t)
      have ht := ih (fun x hx => hr x (List.mem_cons_of_mem c hx))
      have hlow : low_sum (c :: t) = card_low c.rank + low_sum t := by
        simp [low_sum]
      have hn1 : (c :: t).countP (fun x => x.rank = 1)
          = t.countP (fun x => x.rank = 1) + (if c.rank = 1 then 1 else 0) := by
        simp [List.countP_cons]
      have hn2 : (c :: t).countP (fun x => x.rank = 2)
          = t.countP (fun x => x.rank = 2) + (if c.rank = 2 then 1 else 0) := by
        simp [List.countP_cons]
      rw [hlow, hn1, hn2, List.length_cons]
      by_cases h1 : c.rank = 1
      · have hcl : card_low c.rank = 1 := by simp [card_low, h1]
        have h2 : ¬ c.rank = 2 := by omega
        rw [hcl, if_pos h1, if_neg h2]
        omega
      · by_cases h2 : c.rank = 2
        · have hcl : card_low c.rank = 2 := by simp [card_low, h2]
          rw [hcl, if_neg h1, if_pos h2]
          omega
        · have hcl : 3 ≤ card_low c.rank := by
            unfold card_low
            split_ifs <;> omega
          rw [if_neg h1, if_neg h2]
          omega

theorem nodup_lt_length_le (l : List Nat) (n : Nat) (hnd : l.Nodup)
    (hb : ∀ x ∈ l, x < n) : l.length ≤ n := by
  have hsub : l.toFinset ⊆ Finset.range n := by
    intro x hx
    simp only [List.mem_toFinset] at hx
    simp only [Finset.mem_range]
    exact hb x hx
  have := Finset.card_le_card hsub
  rw [List.toFinset_card_of_nodup hnd, Finset.card_range] at this
  exact this

theorem count_rank_le_four (h : List Card) (hnd : h.Nodup)
    (hsub : ∀ c ∈ h, c ∈ deck_init_cards) (r : Nat) :
    h.countP (fun c => c.rank = r) ≤ 4 := by
  rw [List.countP_eq_length_filter]
  set f := h.filter (fun c => decide (c.rank = r)) with hf
  have hfnd : f.Nodup := hnd.filter _
  have hmap : (f.map Card.suit).Nodup := by
    refine hfnd.map_on ?_
    intro x hx y hy hxy
    have hxr : x.rank = r := by
      have := List.of_mem_filter hx
      simpa using this
    have hyr : y.rank = r := by
      have := List.of_mem_filter hy
      simpa using this
    cases x
    cases y
    simp only at hxr hyr hxy
    simp [hxr, hyr, hxy]
  have hlt : ∀ x ∈ f.map Card.suit, x < 4 := by
    intro x hx
    simp only [List.mem_map] at hx
    obtain ⟨c, hc, rfl⟩ := hx
    have hcm : c ∈ h := List.mem_of_mem_filter hc
    have := mem_deck_init_cards (hsub c hcm)
    omega
  have := nodup_lt_length_le (f.map Card.suit) 4 hmap hlt
  simpa using this

theorem twelve_cards_bust (h : List Card) (hnd : h.Nodup)
    (hsub : ∀ c ∈ h, c ∈ deck_init_cards) (hlen : 12 ≤ h.length) :
    21 < hand_value h := by
  have hr : ∀ c ∈ h, 1 ≤ c.rank := fun c hc => (mem_deck_init_cards (hsub c hc)).1
  have h1 := count_rank_le_four h hnd hsub 1
  have h2 := count_rank_le_four h hnd hsub 2
  have hlow := low_sum_lower h hr
  have hge := hand_value_ge_low h
  omega

theorem value_le_21_length (h : List Card) (hnd : h.Nodup)
    (hsub : ∀ c ∈ h, c ∈ deck_init_cards) (hv : hand_value h ≤ 21) :
    h.length ≤ 11 := by
  by_contra hc
  exact absurd hv (by simpa using (twelve_cards_bust h hnd hsub (by omega)).not_le)

theorem inv_init (cards : List Card) (h : List.Perm cards deck_init_cards) :
    match_inv (init_state cards) := by
  have hlen : cards.length = 52 := by
    rw [h.length_eq, deck_init_cards_length]
  match cards, hlen with
  | a :: b :: c :: d :: t, _ =>
    have hx : List.Perm
        ([a, c] ++ [b, d]) ((a :: b :: c :: d :: t).take 4) := by
      simp only [List.take_succ_cons, List.take_zero, List.cons_append,
        List.nil_append]
      exact (List.Perm.swap b c [d]).cons a
    refine ⟨h, ?_, ?_, ?_, ?_, ?_, ?_⟩
    · simpa [init_state, List.getD] using hx
    · simp [init_state]
    · intro _
      apply hand_value_le_21_of_low
      have h1 := card_low_le_ten (Card.rank ((a :: b :: c :: d :: t).getD 0 defCard))
      have h2 := card_low_le_ten (Card.rank ((a :: b :: c :: d :: t).getD 2 defCard))
      simp only [init_state, low_sum, List.map_cons, List.map_nil,
        List.sum_cons, List.sum_nil]
      omega
    · intro _
      apply hand_value_le_21_of_low
      have h1 := card_low_le_ten (Card.rank ((a :: b :: c :: d :: t).getD 1 defCard))
      have h2 := card_low_le_ten (Card.rank ((a :: b :: c :: d :: t).getD 3 defCard))
      simp only [init_state, low_sum, List.map_cons, List.map_nil,
        List.sum_cons, List.sum_nil]
      omega
    · simp [init_state]
    · simp [init_state]

theorem hand_nodup_sub (s : MatchState) (hi : match_inv s) :
    (s.pA.hand ++ s.pB.hand).Nodup ∧
      ∀ c ∈ s.pA.hand ++ s.pB.hand, c ∈ deck_init_cards := by
  obtain ⟨hperm, hhands, -, -, -, -, -⟩ := hi
  have hdn : s.deck.cards.Nodup := hperm.nodup_iff.mpr deck_init_cards_nodup
  have htn : (s.deck.cards.take s.deck.top).Nodup :=
    hdn.sublist (List.take_sublist _ _)
  refine ⟨hhands.nodup_iff.mpr htn, ?_⟩
  intro c hc
  have h1 : c ∈ s.deck.cards.take s.deck.top := hhands.mem_iff.mp hc
  have h2 : c ∈ s.deck.cards := (List.take_sublist _ _).mem h1
  exact hperm.mem_iff.mp h2

theorem inv_step {s t : MatchState} (hi : match_inv s) (hs : Step s t) :
    match_inv t := by
  obtain ⟨hperm, hhands, htop, hvA, hvB, hlA, hlB⟩ := hi
  cases hs with
  | skip h =>
      exact ⟨hperm, hhands, htop, hvA, hvB, hlA, hlB⟩
  | stand hstood hbust =>
      cases hturn : s.turn
      · simp only [stand_step, hturn, set_player, player]
        exact ⟨hperm, hhands, htop, hvA, hvB, hlA, hlB⟩
      · simp only [stand_step, hturn, set_player, player]
        exact ⟨hperm, hhands, htop, hvA, hvB, hlA, hlB⟩
  | hit rnd hstood hbust =>
      obtain ⟨hnd, hsub⟩ := hand_nodup_sub s
        ⟨hperm, hhands, htop, hvA, hvB, hlA, hlB⟩
      have hndA : s.pA.hand.Nodup := (List.nodup_append.mp hnd).1
      have hndB : s.pB.hand.Nodup := (List.nodup_append.mp hnd).2.1
      have hsubA : ∀ c ∈ s.pA.hand, c ∈ deck_init_cards :=
        fun c hc => hsub c (List.mem_append_left _ hc)
      have hsubB : ∀ c ∈ s.pB.hand, c ∈ deck_init_cards :=
        fun c hc => hsub c (List.mem_append_right _ hc)
      have hdlen : s.deck.cards.length = 52 := by
        rw [hperm.length_eq, deck_init_cards_length]
      -- The active hand is worth at most 21, hence holds at most 11 cards,
      -- so the cursor is below 24 and no reshuffle happens on this draw.
      have hactive : (player s s.turn).hand.length ≤ 11 := by
        cases hturn : s.turn
        · have hb : s.pA.busted = false := by simpa [player, hturn] using hbust
          simp only [player]
          exact value_le_21_length _ hndA hsubA (hvA hb)
        · have hb : s.pB.busted = false := by simpa [player, hturn] using hbust
          simp only [player]
          exact value_le_21_length _ hndB hsubB (hvB hb)
      have htoplt : s.deck.top < 52 := by
        cases hturn : s.turn
        · have := hactive
          rw [hturn] at this
          simp only [player] at this
          omega
        · have := hactive
          rw [hturn] at this
          simp only [player] at this
          omega
      have hdraw : deck_draw s.deck rnd
          = (s.deck.cards.getD s.deck.top defCard,
             ⟨s.deck.cards, s.deck.top + 1⟩) := by
        unfold deck_draw
        rw [if_neg (by omega)]
      have hlt : s.deck.top < s.deck.cards.length := by omega
      have hgetd : s.deck.cards.getD s.deck.top defCard
          = s.deck.cards[s.deck.top] :=
        List.getD_eq_getElem _ _ hlt
      have htake : s.deck.cards.take (s.deck.top + 1)
          = s.deck.cards.take s.deck.top
              ++ [s.deck.cards[s.deck.top]] := by
        rw [List.take_succ]
        simp [List.getElem?_eq_getElem hlt]
      set c := s.deck.cards[s.deck.top] with hc
      cases hturn : s.turn
      · -- slot 0 hits
        have hb : s.pA.busted = false := by simpa [player, hturn] using hbust
        have hlactA : s.pA.hand.length ≤ 11 := by
          have := hactive
          rw [hturn] at this
          simpa [player] using this
        simp only [hit_step, hturn, hdraw, set_player, player, hgetd]
        refine ⟨hperm, ?_, ?_, ?_, hvB, ?_, hlB⟩
        · simp only [htake]
          have e1 : (s.pA.hand ++ [c]) ++ s.pB.hand
              = s.pA.hand ++ ([c] ++ s.pB.hand) := by
            simp [List.append_assoc]
          have p1 : List.Perm (s.pA.hand ++ ([c] ++ s.pB.hand))
              (s.pA.hand ++ (s.pB.hand ++ [c])) :=
            List.Perm.append_left _ (List.perm_append_comm)
          have e2 : s.pA.hand ++ (s.pB.hand ++ [c])
              = (s.pA.hand ++ s.pB.hand) ++ [c] := by
            simp [List.append_assoc]
          have p2 : List.Perm ((s.pA.hand ++ s.pB.hand) ++ [c])
              (s.deck.cards.take s.deck.top ++ [c]) :=
            hhands.append_right [c]
          rw [e1]
          exact p1.trans (e2 ▸ p2)
        · simp only [List.length_append, List.length_cons, List.length_nil]
          omega
        · intro hbnew
          by_cases hv : 21 < hand_value (s.pA.hand ++ [c])
          · rw [if_pos hv] at hbnew
            exact absurd hbnew (by simp)
          · show hand_value (s.pA.hand ++ [c]) ≤ 21
            omega
        · simp only [List.length_append, List.length_cons, List.length_nil]
          omega
      · -- slot 1 hits
        have hb : s.pB.busted = false := by simpa [player, hturn] using hbust
        have hlactB : s.pB.hand.length ≤ 11 := by
          have := hactive
          rw [hturn] at this
          simpa [player] using this
        simp only [hit_step, hturn, hdraw, set_player, player, hgetd]
        refine ⟨hperm, ?_, ?_, hvA, ?_, hlA, ?_⟩
        · simp only [htake]
          have e2 : s.pA.hand ++ (s.pB.hand ++ [c])
              = (s.pA.hand ++ s.pB.hand) ++ [c] := by
            simp [List.append_assoc]
          have p2 : List.Perm ((s.pA.hand ++ s.pB.hand) ++ [c])
              (s.deck.cards.take s.deck.top ++ [c]) :=
            hhands.append_right [c]
          rw [e2]
          exact p2
        · simp only [List.length_append, List.length_cons, List.length_nil]
          omega
        · intro hbnew
          by_cases hv : 21 < hand_value (s.pB.hand ++ [c])
          · rw [if_pos hv] at hbnew
            exact absurd hbnew (by simp)
          · show hand_value (s.pB.hand ++ [c]) ≤ 21
            omega
        · simp only [List.length_append, List.length_cons, List.length_nil]
          omega

theorem reachable_inv {s : MatchState} (h : Reachable s) : match_inv s := by
  induction h with
  | init cards hp => exact inv_init cards hp
  | step hr hs ih => exact inv_step ih hs

/-- Claim C2: settlement computes `va` as the hand value of slot 0, with -1
exactly when slot 0 is marked busted (`vb` likewise), announces the forced
winner's name when one was set, else the higher-value slot's name, else the
literal `PUSH`, and sends the result line to each player whose socket is
attached. -/
theorem claim_C2 (g : GameEnd) :
    (end_game g).va = (if g.bustedA then -1 else (hand_value g.handA : Int)) ∧
    ((end_game g).va = -1 ↔ g.bustedA = true) ∧
    (end_game g).vb = (if g.bustedB then -1 else (hand_value g.handB : Int)) ∧
    ((end_game g).vb = -1 ↔ g.bustedB = true) ∧
    (end_game g).winner =
      (if g.forced_winner_idx = 0 then g.nameA
       else if g.forced_winner_idx = 1 then g.nameB
       else if (end_game g).vb < (end_game g).va then g.nameA
       else if (end_game g).va < (end_game g).vb then g.nameB
       else "PUSH".data) ∧
    ((g.fdA, (end_game g).line) ∈ (end_game g).outputs ↔ 0 ≤ g.fdA) ∧
    ((g.fdB, (end_game g).line) ∈ (end_game g).outputs ↔ 0 ≤ g.fdB) := by
  refine ⟨rfl, ?_, rfl, ?_, rfl, ?_, ?_⟩
  · show (if g.bustedA then (-1 : Int) else (hand_value g.handA : Int)) = -1
      ↔ g.bustedA = true
    cases g.bustedA <;> simp <;> omega
  · show (if g.bustedB then (-1 : Int) else (hand_value g.handB : Int)) = -1
      ↔ g.bustedB = true
    cases g.bustedB <;> simp <;> omega
  · show (g.fdA, (end_game g).line) ∈
        ((if 0 ≤ g.fdA then [(g.fdA, (end_game g).line)] else [])
          ++ (if 0 ≤ g.fdB then [(g.fdB, (end_game g).line)] else []))
      ↔ 0 ≤ g.fdA
    by_cases ha : 0 ≤ g.fdA <;> by_cases hb : 0 ≤ g.fdB <;>
      simp [ha, hb] <;> omega
  · show (g.fdB, (end_game g).line) ∈
        ((if 0 ≤ g.fdA then [(g.fdA, (end_game g).line)] else [])
          ++ (if 0 ≤ g.fdB then [(g.fdB, (end_game g).line)] else []))
      ↔ 0 ≤ g.fdB
    by_cases ha : 0 ≤ g.fdA <;> by_cases hb : 0 ≤ g.fdB <;>
      simp [ha, hb] <;> omega

/-- Claim C5, counterexample: slot 0 (name `A`, hand K♣ 9♣, not busted)
disconnects and the reconnect window expires.  The match does settle with
the remaining player `B` as forced winner, but the result line reports A's
value as 19 — the actual hand value — not -1 as the claim states. -/
theorem claim_C5_counterexample :
    (timeout_settle ⟨"A".data, "B".data, [⟨13, 0⟩, ⟨9, 0⟩], [⟨5, 0⟩, ⟨6, 0⟩],
        false, false, 7, 8, -1⟩ false).va = 19 ∧
    (timeout_settle ⟨"A".data, "B".data, [⟨13, 0⟩, ⟨9, 0⟩], [⟨5, 0⟩, ⟨6, 0⟩],
        false, false, 7, 8, -1⟩ false).va ≠ -1 ∧
    (timeout_settle ⟨"A".data, "B".data, [⟨13, 0⟩, ⟨9, 0⟩], [⟨5, 0⟩, ⟨6, 0⟩],
        false, false, 7, 8, -1⟩ false).winner = "B".data := by
  refine ⟨?_, ?_, ?_⟩ <;> decide

/-- Claim C5 (amended): when a player disconnects mid-match and does not
reconnect within the 30-second window, the match settles with the remaining
player as forced winner; the result line reports the missing player's value
as -1 exactly when the missing player had busted, and otherwise reports
their actual hand value; the line is written only to the remaining player's
socket (when still attached). -/
theorem claim_C5 (g : GameEnd) (missing : Bool) :
    (timeout_settle g missing).winner
      = (if missing then g.nameA else g.nameB) ∧
    (if missing then (timeout_settle g missing).vb
     else (timeout_settle g missing).va)
      = (if (if missing then g.bustedB else g.bustedA) then -1
         else ((hand_value (if missing then g.handB else g.handA) : Int))) ∧
    ((if missing then (timeout_settle g missing).vb
      else (timeout_settle g missing).va) = -1
       ↔ (if missing then g.bustedB else g.bustedA) = true) ∧
    (((if missing then g.fdA else g.fdB), (timeout_settle g missing).line)
        ∈ (timeout_settle g missing).outputs
      ↔ 0 ≤ (if missing then g.fdA else g.fdB)) ∧
    (∀ x ∈ (timeout_settle g missing).outputs,
      x.1 = (if missing then g.fdA else g.fdB)) := by
  cases missing
  · refine ⟨?_, rfl, ?_, ?_, ?_⟩
    · show (timeout_settle g false).winner = g.nameB
      simp [timeout_settle, end_game]
    · show (if g.bustedA then (-1 : Int) else (hand_value g.handA : Int)) = -1
        ↔ g.bustedA = true
      cases g.bustedA <;> simp
    · show (g.fdB, (timeout_settle g false).line) ∈
          ((if (0 : Int) ≤ -1 then [((-1 : Int), (timeout_settle g false).line)]
            else [])
            ++ (if 0 ≤ g.fdB then [(g.fdB, (timeout_settle g false).line)]
                else []))
        ↔ 0 ≤ g.fdB
      by_cases hb : 0 ≤ g.fdB <;> simp [hb]
    · intro x hx
      have hx' : x ∈ (if (0 : Int) ≤ -1
            then [((-1 : Int), (timeout_settle g false).line)] else [])
          ++ (if 0 ≤ g.fdB then [(g.fdB, (timeout_settle g false).line)]
              else []) := hx
      by_cases hb : 0 ≤ g.fdB <;> simp [hb] at hx' <;> simp [hx']
  · refine ⟨?_, rfl, ?_, ?_, ?_⟩
    · show (timeout_settle g true).winner = g.nameA
      simp [timeout_settle, end_game]
    · show (if g.bustedB then (-1 : Int) else (hand_value g.handB : Int)) = -1
        ↔ g.bustedB = true
      cases g.bustedB <;> simp
    · show (g.fdA, (timeout_settle g true).line) ∈
          ((if 0 ≤ g.fdA then [(g.fdA, (timeout_settle g true).line)] else [])
            ++ (if (0 : Int) ≤ -1
                then [((-1 : Int), (timeout_settle g true).line)] else []))
        ↔ 0 ≤ g.fdA
      by_cases ha : 0 ≤ g.fdA <;> simp [ha]
    · intro x hx
      have hx' : x ∈ (if 0 ≤ g.fdA
            then [(g.fdA, (timeout_settle g true).line)] else [])
          ++ (if (0 : Int) ≤ -1
              then [((-1 : Int), (timeout_settle g true).line)] else []) := hx
      by_cases ha : 0 ≤ g.fdA <;> simp [ha] at hx' <;> simp [hx']

theorem spawn_count_of_running (n : Nat) : ∀ L : LobbyCtl,
    L.is_running = true → spawn_count n L = 0 := by
  induction n with
  | zero => intro L _; rfl
  | succ m ih =>
      intro L h
      have hs : start_game_if_ready L = (L, false) := by
        unfold start_game_if_ready
        rw [if_neg]
        simp [h]
      simp [spawn_count, hs, ih L h]

theorem spawn_count_le_one : ∀ (n : Nat) (L : LobbyCtl), spawn_count n L ≤ 1 := by
  intro n
  induction n with
  | zero => intro L; simp [spawn_count]
  | succ m ih =>
      intro L
      by_cases hs : (start_game_if_ready L).2 = true
      · have hrun : (start_game_if_ready L).1.is_running = true := by
          unfold start_game_if_ready at hs ⊢
          by_cases hcond : (!L.is_running && L.player_count == 2) = true
          · rw [if_pos hcond]
          · rw [if_neg hcond] at hs
            exact absurd hs (by simp)
        simp [spawn_count, hs, spawn_count_of_running m _ hrun]
      · have hs' : (start_game_if_ready L).2 = false := by
          cases h : (start_game_if_ready L).2
          · rfl
          · exact absurd h hs
        simp [spawn_count, hs']
        exact ih _

/-- Claim C8: `start_game_if_ready` flips the running flag and spawns a
match task exactly when the lobby holds exactly two players and is not
already running, leaves a non-full or running lobby unchanged, is idempotent
(a second call changes nothing and spawns nothing), and any number of calls
spawns at most one task. -/
theorem claim_C8 (L : LobbyCtl) (n : Nat) :
    start_game_if_ready L
      = (if L.is_running = false ∧ L.player_count = 2
         then ({ L with is_running := true }, true) else (L, false)) ∧
    start_game_if_ready (start_game_if_ready L).1
      = ((start_game_if_ready L).1, false) ∧
    spawn_count n L ≤ 1 := by
  refine ⟨?_, ?_, ?_⟩
  · unfold start_game_if_ready
    by_cases hr : L.is_running
    · rw [if_neg (by simp [hr]), if_neg (by simp [hr])]
    · by_cases hc : L.player_count = 2
      · rw [if_pos (by simp [hr, hc]), if_pos ⟨by simp [hr], hc⟩]
      · rw [if_neg (by simp [hc]), if_neg (by simp [hc])]
  · by_cases hr : L.is_running
    · have h1 : start_game_if_ready L = (L, false) := by
        unfold start_game_if_ready
        rw [if_neg (by simp [hr])]
      rw [h1]
      unfold start_game_if_ready
      rw [if_neg (by simp [hr])]
    · by_cases hc : L.player_count = 2
      · have h1 : start_game_if_ready L = ({ L with is_running := true }, true) := by
          unfold start_game_if_ready
          rw [if_pos (by simp [hr, hc])]
        rw [h1]
        unfold start_game_if_ready
        rw [if_neg (by simp)]
      · have h1 : start_game_if_ready L = (L, false) := by
          unfold start_game_if_ready
          rw [if_neg (by simp [hc])]
        rw [h1]
        unfold start_game_if_ready
        rw [if_neg (by simp [hc])]
  · exact spawn_count_le_one n L

theorem digitChar_isDigit (k : Nat) (h : k ≤ 9) :
    (Nat.digitChar k).isDigit = true := by
  interval_cases k <;> decide

theorem digitChar_toNat (k : Nat) (h : k ≤ 9) :
    (Nat.digitChar k).toNat = 48 + k := by
  interval_cases k <;> decide

/-- Claim C6 (code bug): for every payload of length at most 99, building a
C45 frame and then parsing that frame does NOT return the payload: the frame
ends in the `'\n'` appended by `c45_build_frame`, `c45_parse_line` counts
that byte in the payload length it measures, and reports the length-mismatch
error -2 for every output buffer size. -/
theorem claim_C6 (payload : List Char) (hlen : payload.length ≤ 99)
    (hnul : Char.ofNat 0 ∉ payload) :
    ∃ frame, c45_build_frame payload = some frame ∧
      ∀ out_sz : Nat, c45_parse_line frame out_sz = Except.error (-2) := by
  clear hnul
  refine ⟨'C' :: '4' :: '5' :: Nat.digitChar (payload.length / 10)
      :: Nat.digitChar (payload.length % 10) :: (payload ++ ['\n']), ?_, ?_⟩
  · unfold c45_build_frame
    rw [if_pos hlen]
  · intro out_sz
    have hd1 : (Nat.digitChar (payload.length / 10)).isDigit = true :=
      digitChar_isDigit _ (by omega)
    have hd2 : (Nat.digitChar (payload.length % 10)).isDigit = true :=
      digitChar_isDigit _ (by omega)
    have hpref : ("C45".data.isPrefixOf
        ('C' :: '4' :: '5' :: Nat.digitChar (payload.length / 10)
          :: Nat.digitChar (payload.length % 10) :: (payload ++ ['\n']))) = true := by
      have hc : "C45".data = ['C', '4', '5'] := by decide
      rw [hc]
      simp [List.isPrefixOf]
    have hclen : c45_len ('C' :: '4' :: '5' :: Nat.digitChar (payload.length / 10)
        :: Nat.digitChar (payload.length % 10) :: (payload ++ ['\n']))
        = payload.length := by
      unfold c45_len
      simp only [List.getD_cons_succ, List.getD_cons_zero]
      rw [digitChar_toNat _ (by omega), digitChar_toNat _ (by omega)]
      have hz : ('0').toNat = 48 := by decide
      rw [hz]
      omega
    unfold c45_parse_line
    rw [if_neg (by simp [hpref])]
    rw [if_neg (by simp [List.getD_cons_succ, List.getD_cons_zero, hd1, hd2])]
    rw [hclen, if_neg (by omega)]
    rw [if_pos]
    simp only [List.drop_succ_cons, List.drop_zero, List.length_append,
      List.length_cons, List.length_nil]
    omega

/-- Witness for claim C6 at the concrete payload `AB`. -/
theorem claim_C6_witness :
    ∃ frame, c45_build_frame "AB".data = some frame ∧
      ∀ out_sz : Nat, c45_parse_line frame out_sz = Except.error (-2) :=
  claim_C6 "AB".data (by decide) (by decide)

theorem find_first_lt_length (n : List Char) (l : List RegEntry) (i : Nat)
    (h : find_first n l = some i) : i < l.length := by
  induction l generalizing i with
  | nil => simp [find_first] at h
  | cons e t ih =>
      unfold find_first at h
      by_cases he : (e.name == n) = true
      · rw [if_pos he] at h
        injection h with h
        simp only [List.length_cons]
        omega
      · rw [if_neg he] at h
        cases hft : find_first n t with
        | none =>
            rw [hft] at h
            exact Option.noConfusion h
        | some j =>
            rw [hft] at h
            injection h with h
            have h2 : j + 1 = i := h
            have := ih j hft
            simp only [List.length_cons]
            omega

theorem find_first_set (n : List Char) (l : List RegEntry) (i : Nat)
    (e' : RegEntry) (h : find_first n l = some i)
    (he : (e'.name == n) = (((l.getD i defEntry).name == n))) :
    find_first n (l.set i e') = some i := by
  induction l generalizing i with
  | nil => simp [find_first] at h
  | cons x t ih =>
      unfold find_first at h
      by_cases hx : (x.name == n) = true
      · rw [if_pos hx] at h
        injection h with h
        subst h
        simp only [List.getD_cons_zero] at he
        rw [hx] at he
        simp only [List.set_cons_zero]
        unfold find_first
        rw [if_pos he]
      · rw [if_neg hx] at h
        cases hft : find_first n t with
        | none =>
            rw [hft] at h
            exact Option.noConfusion h
        | some j =>
            rw [hft] at h
            injection h with h
            subst h
            simp only [List.getD_cons_succ] at he
            simp only [List.set_cons_succ]
            unfold find_first
            rw [if_neg hx, ih j hft he]
            rfl

theorem getD_set_self (l : List RegEntry) (i : Nat) (e' : RegEntry)
    (h : i < l.length) : (l.set i e').getD i defEntry = e' := by
  rw [List.getD_eq_getElem _ _ (by simpa using h)]
  apply List.getElem_set_self

theorem remove_if_token_no_match (S : Registry) (m : List Char) (t : Nat)
    (j : Nat) (hj : active_name_find S m = some j)
    (hne : (S.entries.getD j defEntry).token ≠ t) :
    active_name_remove_if_token S m t = S := by
  unfold active_name_remove_if_token
  rw [hj]
  exact if_pos hne

/-- Claim C9: rebinding a name to a new socket assigns a token equal to the
current counter — strictly larger than every token stored before (and than
any token handed out earlier, the counter being monotone) — so the previous
session's terminating cleanup, which removes only on token match, leaves the
name registered; and in general `remove_if_token` with a token different
from the stored one changes nothing. -/
theorem claim_C9 (R : Registry) (n : List Char) (fd : Int) (told : Nat)
    (hwf : ∀ e ∈ R.entries, e.token < R.seq)
    (hmem : (active_name_find R n).isSome = true)
    (htold : told < R.seq) :
    (active_name_set_fd R n fd).2 = R.seq ∧
    (∀ e ∈ R.entries, e.token < (active_name_set_fd R n fd).2) ∧
    told < (active_name_set_fd R n fd).2 ∧
    active_name_remove_if_token (active_name_set_fd R n fd).1 n told
      = (active_name_set_fd R n fd).1 ∧
    active_name_has (active_name_set_fd R n fd).1 n = true ∧
    (∀ (S : Registry) (m : List Char) (t : Nat) (j : Nat),
       active_name_find S m = some j →
       (S.entries.getD j defEntry).token ≠ t →
       active_name_remove_if_token S m t = S) := by
  obtain ⟨i, hfind⟩ := Option.isSome_iff_exists.mp hmem
  have hilt : i < R.entries.length := find_first_lt_length n R.entries i hfind
  have hset : active_name_set_fd R n fd
      = ({ entries := R.entries.set i
             { R.entries.getD i defEntry with fd := fd, token := R.seq },
           seq := R.seq + 1 }, R.seq) := by
    unfold active_name_set_fd
    rw [hfind]
  have hfind' : active_name_find (active_name_set_fd R n fd).1 n = some i := by
    rw [hset]
    show find_first n (R.entries.set i _) = some i
    exact find_first_set n R.entries i _ hfind rfl
  have hne : (((active_name_set_fd R n fd).1).entries.getD i defEntry).token
      ≠ told := by
    rw [hset]
    show ((R.entries.set i _).getD i defEntry).token ≠ told
    rw [getD_set_self _ _ _ hilt]
    show R.seq ≠ told
    omega
  refine ⟨by rw [hset], ?_, ?_, ?_, ?_, ?_⟩
  · intro e he
    rw [hset]
    exact hwf e he
  · rw [hset]
    exact htold
  · exact remove_if_token_no_match _ _ _ i hfind' hne
  · unfold active_name_has
    rw [hfind']
    rfl
  · intro S m t j hj hne'
    exact remove_if_token_no_match S m t j hj hne'

/-- Witness for claim C9: registry holding `bob` with token 3, counter 4;
the stale cleanup token is 3. -/
theorem claim_C9_witness :
    (active_name_set_fd ⟨[⟨"bob".data, 5, false, 3⟩], 4⟩ "bob".data 9).2 = 4 ∧
    active_name_remove_if_token
        (active_name_set_fd ⟨[⟨"bob".data, 5, false, 3⟩], 4⟩ "bob".data 9).1
        "bob".data 3
      = (active_name_set_fd ⟨[⟨"bob".data, 5, false, 3⟩], 4⟩ "bob".data 9).1 ∧
    active_name_has
        (active_name_set_fd ⟨[⟨"bob".data, 5, false, 3⟩], 4⟩ "bob".data 9).1
        "bob".data = true := by
  have h := claim_C9 ⟨[⟨"bob".data, 5, false, 3⟩], 4⟩ "bob".data 9 3
    (by decide) (by decide) (by decide)
  exact ⟨h.1, h.2.2.2.1, h.2.2.2.2.1⟩

/-- Claim C10: when the draw cursor has reached the end of the deck,
`deck_draw` reshuffles the entire 52-card array in place — a permutation of
all 52 cards, including the already-dealt positions below the cursor — and
resets the cursor to 0; the draw then returns the card now at position 0,
leaving the cursor at 1.  In particular there is a shuffle outcome (a
`rand()` stream) under which the drawn card is the card from dealt position
0, i.e. a card already dealt into a hand, so the two hands' card multisets
need not stay disjoint after a reshuffle. -/
theorem claim_C10 (d : Deck) (rnd : Nat → Nat)
    (hlen : d.cards.length = 52) (htop : 52 ≤ d.top) :
    List.Perm (deck_shuffle d rnd).cards d.cards ∧
    (deck_shuffle d rnd).top = 0 ∧
    deck_draw d rnd
      = ((deck_shuffle d rnd).cards.getD 0 defCard,
         ⟨(deck_shuffle d rnd).cards, 1⟩) ∧
    (∃ rnd2 : Nat → Nat, (deck_draw d rnd2).1 = d.cards.getD 0 defCard) := by
  refine ⟨?_, deck_shuffle_top d rnd, ?_, ?_⟩
  · rw [deck_shuffle_cards]
    exact fy_aux_perm rnd 51 d.cards (by omega)
  · simp only [deck_draw]
    rw [if_pos htop, deck_shuffle_top]
  · refine ⟨fun k => k, ?_⟩
    simp only [deck_draw]
    rw [if_pos htop, deck_shuffle_top, deck_shuffle_cards, fy_aux_id]

/-- Witness for claim C10: the standard deck with its cursor at 52. -/
theorem claim_C10_witness :
    List.Perm (deck_shuffle ⟨deck_init_cards, 52⟩ (fun k => k)).cards
      deck_init_cards ∧
    (deck_shuffle ⟨deck_init_cards, 52⟩ (fun k => k)).top = 0 := by
  have h := claim_C10 ⟨deck_init_cards, 52⟩ (fun k => k) (by decide) (by decide)
  exact ⟨h.1, h.2.1⟩

/-- Claim C4: in every reachable match state each player's hand holds at
most 12 cards; moreover a hand that can still hit (not busted) holds at most
11, so the append `P->hand[P->hand_size++]` of the hit handler always writes
inside the 12-element `hand` array. -/
theorem claim_C4 (s : MatchState) (h : Reachable s) (p : Bool) :
    (player s p).hand.length ≤ 12 ∧
    ((player s p).busted = false → (player s p).hand.length < 12) := by
  have hi := reachable_inv h
  obtain ⟨hnd, hsub⟩ := hand_nodup_sub s hi
  obtain ⟨hperm, hhands, htop, hvA, hvB, hlA, hlB⟩ := hi
  cases p
  · simp only [player]
    refine ⟨hlA, fun hb => ?_⟩
    have := value_le_21_length _ (List.nodup_append.mp hnd).1
      (fun c hc => hsub c (List.mem_append_left _ hc)) (hvA hb)
    omega
  · simp only [player]
    refine ⟨hlB, fun hb => ?_⟩
    have := value_le_21_length _ (List.nodup_append.mp hnd).2.1
      (fun c hc => hsub c (List.mem_append_right _ hc)) (hvB hb)
    omega

/-- Witness for claim C4 at the freshly dealt match on the identity-shuffled
deck. -/
theorem claim_C4_witness :
    (player (init_state deck_init_cards) false).hand.length ≤ 12 ∧
    (player (init_state deck_init_cards) false).hand.length < 12 := by
  have h := claim_C4 (init_state deck_init_cards)
    (Reachable.init deck_init_cards (List.Perm.refl deck_init_cards)) false
  exact ⟨h.1, h.2 (by decide)⟩

/-- Claim C3, counterexample: the exact token line `C45H` (which `is_token`
matches as the token `C45H`) is NOT interpreted as a hit — it is a protocol
violation — while `C45HITXYZ`, a longer word that is not the token `C45H`,
IS interpreted as a hit: game.c:729 matches by `strncmp(buf, "C45HIT", 6)`
prefix, not by exact token. -/
theorem claim_C3_counterexample :
    is_token "C45H\n".data "C45H".data = true ∧
    classify_turn_line "C45H\n".data "bob".data = TurnCmd.violation ∧
    classify_turn_line "C45H\n".data "bob".data ≠ TurnCmd.hit ∧
    is_token "C45HITXYZ\n".data "C45H".data = false ∧
    classify_turn_line "C45HITXYZ\n".data "bob".data = TurnCmd.hit := by
  refine ⟨?_, ?_, ?_, ?_, ?_⟩ <;> decide

/-- Claim C3 (amended): during a match the active player's line is
interpreted as a hit exactly when it passes the earlier keep-alive and
back-request checks and begins with the six characters `C45HIT`, and as a
stand exactly when it similarly begins with `C45STAND`; the match is a
prefix match (`strncmp`), so longer words beginning with `C45HIT` or
`C45STAND` are accepted, and the bare tokens `C45H` / `C45S` are not. -/
theorem isPrefixOf_eq_false {l t : List Char} (h : ¬ l <+: t) :
    l.isPrefixOf t = false := by
  cases hp : l.isPrefixOf t
  · rfl
  · exact absurd (List.isPrefixOf_iff_prefix.mp hp) h

theorem claim_C3 (line name : List Char) :
    (classify_turn_line line name = TurnCmd.hit ↔
      (is_token line "C45PONG".data = false ∧
       is_token line "C45PING".data = false ∧
       is_token line "C45YES".data = false ∧
       is_back_request_for_name line name ≠ 1 ∧
       "C45HIT".data.isPrefixOf line = true)) ∧
    (classify_turn_line line name = TurnCmd.stand ↔
      (is_token line "C45PONG".data = false ∧
       is_token line "C45PING".data = false ∧
       is_token line "C45YES".data = false ∧
       is_back_request_for_name line name ≠ 1 ∧
       "C45HIT".data.isPrefixOf line = false ∧
       "C45STAND".data.isPrefixOf line = true)) := by
  unfold classify_turn_line
  split_ifs with h1 h2 h3 h4 h5 h6 <;> simp_all [List.isPrefixOf_iff_prefix, isPrefixOf_eq_false]

/-- Witness for claim C1 at the concrete hand A♠ K♥ (value 21). -/
theorem claim_C1_witness :
    hand_value [(⟨1, 3⟩ : Card), ⟨13, 2⟩]
      = demote_loop (raw_sum [(⟨1, 3⟩ : Card), ⟨13, 2⟩])
          (aces_in [(⟨1, 3⟩ : Card), ⟨13, 2⟩]) ∧
    hand_value [(⟨1, 3⟩ : Card), ⟨13, 2⟩] ≤ 21 := by
  have h := claim_C1 [(⟨1, 3⟩ : Card), ⟨13, 2⟩] (by decide)
  refine ⟨h.1, ?_⟩
  have h2 := h.2.1 ⟨21, ⟨1, by decide, by decide⟩, by decide⟩
  exact h2.2.1

theorem sp_tab_imp_line_ws (c : Char) (h : sp_tab c = true) :
    line_ws c = true := by
  simp only [sp_tab, Bool.or_eq_true] at h
  simp only [line_ws, Bool.or_eq_true]
  tauto

theorem dropWhile_append_of_all {p : Char → Bool} (w l : List Char)
    (hw : ∀ c ∈ w, p c = true) : (w ++ l).dropWhile p = l.dropWhile p := by
  induction w with
  | nil => rfl
  | cons c t ih =>
      have hc : p c = true := hw c (List.mem_cons_self c t)
      simp only [List.cons_append, List.dropWhile_cons, hc, if_pos]
      exact ih (fun x hx => hw x (List.mem_cons_of_mem c hx))

theorem dropWhile_idem {p : Char → Bool} (l : List Char) :
    (l.dropWhile p).dropWhile p = l.dropWhile p := by
  induction l with
  | nil => rfl
  | cons c t ih =>
      by_cases hc : p c = true
      · simp only [List.dropWhile_cons, hc, if_pos]
        exact ih
      · have hc' : p c = false := by
          cases h : p c
          · rfl
          · exact absurd h hc
        simp [List.dropWhile_cons, hc']

theorem strip_trailing_append {p : Char → Bool} (t w : List Char)
    (hw : ∀ c ∈ w, p c = true)
    (ht : t.reverse.dropWhile p = t.reverse) :
    strip_trailing (t ++ w) p = t := by
  unfold strip_trailing
  rw [List.reverse_append]
  rw [dropWhile_append_of_all _ _ (fun c hc => hw c (List.mem_reverse.mp hc))]
  rw [ht, List.reverse_reverse]

theorem strip_trailing_decomp (p : Char → Bool) (l : List Char) :
    l = strip_trailing l p ++ (l.reverse.takeWhile p).reverse ∧
    (∀ c ∈ (l.reverse.takeWhile p).reverse, p c = true) ∧
    (strip_trailing l p).reverse.dropWhile p = (strip_trailing l p).reverse := by
  refine ⟨?_, ?_, ?_⟩
  · have h0 : l.reverse.takeWhile p ++ l.reverse.dropWhile p = l.reverse :=
      List.takeWhile_append_dropWhile p l.reverse
    have h1 : l = (l.reverse.takeWhile p ++ l.reverse.dropWhile p).reverse := by
      rw [h0, List.reverse_reverse]
    rw [List.reverse_append] at h1
    exact h1
  · intro c hc
    exact List.mem_takeWhile_imp (List.mem_reverse.mp hc)
  · unfold strip_trailing
    rw [List.reverse_reverse]
    exact dropWhile_idem l.reverse

theorem reverse_no_ws_fixed {p : Char → Bool} (N : List Char) (hN : N ≠ [])
    (h : ∀ c ∈ N, p c = false) : N.reverse.dropWhile p = N.reverse := by
  cases hrev : N.reverse with
  | nil =>
      exact absurd (by simpa using congrArg List.reverse hrev) hN
  | cons d r =>
      have hd : d ∈ N := by
        rw [← List.mem_reverse, hrev]
        exact List.mem_cons_self d r
      simp [List.dropWhile_cons, h d hd]

theorem back_rev_fixed (X : List Char) :
    (X ++ "back".data).reverse.dropWhile line_ws
      = (X ++ "back".data).reverse := by
  have hb : ("back".data : List Char).reverse = ['k', 'c', 'a', 'b'] := by
    decide
  rw [List.reverse_append, hb]
  have hk : line_ws 'k' = false := by decide
  simp [List.dropWhile_cons, hk]

/-- Claim C7, counterexample: the line `C45 bob back` (with a space between
the prefix and the name and between the name and `back`) IS accepted as a
back request for `bob`, although the text after `C45` does not start with
`bobback` as the claimed exact wire form requires: game.c:397 skips
spaces/tabs after the prefix and game.c:415 strips spaces/tabs before
`back`. -/
theorem claim_C7_counterexample :
    is_back_request_for_name "C45 bob back\n".data "bob".data = 1 ∧
    ("bob".data ++ "back".data).isPrefixOf ("C45 bob back\n".data.drop 3)
      = false := by
  refine ⟨?_, ?_⟩ <;> decide

/-- Claim C7 (amended): for a well-formed name (nonempty, at most 63 bytes,
no whitespace) and a line that fits the 256-byte read buffer, a line is
recognized as a back request for `N` exactly when it is `C45`, then an
optional run of spaces/tabs, then `N`, then an optional run of spaces/tabs,
then `back`, then an optional trailing run of whitespace (`\r`, `\n`,
space, tab).  Runs of whitespace after the prefix and before `back` ARE
tolerated, contrary to the claim's exact wire form. -/
theorem claim_C7 (line N : List Char)
    (hN : N ≠ []) (hNlen : N.length ≤ 63)
    (hNws : ∀ c ∈ N, line_ws c = false)
    (hline : line.length ≤ 258) :
    is_back_request_for_name line N = 1 ↔ back_wire_form line N := by
  have hNsp : ∀ c ∈ N, sp_tab c = false := by
    intro c hc
    cases hsp : sp_tab c
    · rfl
    · exact absurd (sp_tab_imp_line_ws c hsp) (by simp [hNws c hc])
  have h3len : ("C45".data : List Char).length = 3 := by decide
  constructor
  · -- dissect an accepted line
    intro h
    unfold is_back_request_for_name at h
    split_ifs at h with h1 h2 h3 h4 h5 h6
    · exact absurd h (by decide)
    · exact absurd h (by decide)
    · exact absurd h (by decide)
    · -- accepting branch: h6 : take-64 comparison succeeded
      obtain ⟨rest, hrest⟩ := List.isPrefixOf_iff_prefix.mp h2
      have hdrop : line.drop 3 = rest := by
        rw [← hrest, ← h3len, List.drop_left]
      have hw1 : ∀ c ∈ rest.takeWhile sp_tab, sp_tab c = true :=
        fun c hc => List.mem_takeWhile_imp hc
      have hrest_split : rest = rest.takeWhile sp_tab ++ rest.dropWhile sp_tab :=
        (List.takeWhile_append_dropWhile sp_tab rest).symm
      set w1l := rest.takeWhile sp_tab with hw1def
      set s0 := rest.dropWhile sp_tab with hs0def
      have hslen : s0.length ≤ 255 := by
        have e1 : line.length = 3 + rest.length := by
          rw [← hrest, List.length_append, h3len]
        have e2 : s0.length ≤ rest.length := by
          rw [hs0def]
          exact (List.dropWhile_sublist sp_tab).length_le
        omega
      set K := back_core line with hKdef
      have hback : K.drop (K.length - 4) = "back".data := not_not.mp h4
      have hK : K = strip_trailing s0 line_ws := by
        rw [hKdef]
        unfold back_core
        rw [hdrop, List.take_of_length_le hslen]
      obtain ⟨hsdec, hw3, -⟩ := strip_trailing_decomp line_ws s0
      set w3l := (s0.reverse.takeWhile line_ws).reverse with hw3def
      have htk : K.take (K.length - 4) ++ "back".data = K := by
        conv_rhs => rw [← List.take_append_drop (K.length - 4) K]
        rw [hback]
      set u2 := K.take (K.length - 4) with hu2def
      obtain ⟨hudec, hw2, -⟩ := strip_trailing_decomp sp_tab u2
      set w2l := (u2.reverse.takeWhile sp_tab).reverse with hw2def
      have hu : back_name_part line = strip_trailing u2 sp_tab := by
        rw [hu2def, hKdef]
        rfl
      have hueq : strip_trailing u2 sp_tab = N := by
        rw [← hu]
        have hN64 : N.take 64 = N := List.take_of_length_le (by omega)
        by_cases hul : (back_name_part line).length ≤ 64
        · rw [← List.take_of_length_le hul, h6, hN64]
        · exfalso
          have e1 : ((back_name_part line).take 64).length = 64 := by
            rw [List.length_take]
            omega
          rw [h6, hN64] at e1
          omega
      have hufull : u2 = N ++ w2l := by
        rw [hudec, hueq]
      have hs_eq : s0 = ((N ++ w2l) ++ "back".data) ++ w3l := by
        rw [hsdec, ← hK, ← htk, hufull]
      refine ⟨w1l, w2l, w3l, hw1, hw2, hw3, ?_⟩
      rw [← hrest, hrest_split, hs_eq]
      simp [List.append_assoc]
    · exact absurd h (by decide)
  · -- an accepted wire form evaluates to 1
    rintro ⟨w1, w2, w3, hw1, hw2, hw3, rfl⟩
    set line := "C45".data ++ w1 ++ N ++ w2 ++ "back".data ++ w3 with hline_def
    obtain ⟨c, N', hNc⟩ : ∃ c N', N = c :: N' := by
      cases N with
      | nil => exact absurd rfl hN
      | cons c N' => exact ⟨c, N', rfl⟩
    have hpref : ("C45".data.isPrefixOf line) = true := by
      apply List.isPrefixOf_iff_prefix.mpr
      refine ⟨w1 ++ N ++ w2 ++ "back".data ++ w3, ?_⟩
      rw [hline_def]
      simp [List.append_assoc]
    have hdrop3 : line.drop 3 = w1 ++ (N ++ (w2 ++ ("back".data ++ w3))) := by
      rw [hline_def, ← h3len]
      have : "C45".data ++ w1 ++ N ++ w2 ++ "back".data ++ w3
          = "C45".data ++ (w1 ++ (N ++ (w2 ++ ("back".data ++ w3)))) := by
        simp [List.append_assoc]
      rw [this, List.drop_left]
    have hdw : (line.drop 3).dropWhile sp_tab
        = N ++ (w2 ++ ("back".data ++ w3)) := by
      rw [hdrop3, dropWhile_append_of_all w1 _ hw1, hNc]
      have hc : sp_tab c = false := hNsp c (by rw [hNc]; exact List.mem_cons_self c N')
      simp [List.cons_append, List.dropWhile_cons, hc]
    have hdwlen : ((line.drop 3).dropWhile sp_tab).length ≤ 255 := by
      have e2 : ((line.drop 3).dropWhile sp_tab).length ≤ (line.drop 3).length :=
        (List.dropWhile_sublist sp_tab).length_le
      have e3 : (line.drop 3).length = line.length - 3 := by
        simp
      omega
    have hK : back_core line = N ++ (w2 ++ "back".data) := by
      unfold back_core
      rw [List.take_of_length_le hdwlen, hdw]
      have : N ++ (w2 ++ ("back".data ++ w3))
          = (N ++ (w2 ++ "back".data)) ++ w3 := by
        simp [List.append_assoc]
      rw [this]
      apply strip_trailing_append _ _ hw3
      have : N ++ (w2 ++ "back".data) = (N ++ w2) ++ "back".data := by
        simp [List.append_assoc]
      rw [this]
      exact back_rev_fixed (N ++ w2)
    have hKassoc : back_core line = (N ++ w2) ++ "back".data := by
      rw [hK]
      simp [List.append_assoc]
    have hKlen : (back_core line).length = N.length + w2.length + 4 := by
      rw [hKassoc]
      have hb4 : ("back".data : List Char).length = 4 := by decide
      simp [List.length_append, hb4]
      omega
    have hNpos : 0 < N.length := by
      cases N with
      | nil => exact absurd rfl hN
      | cons a b => simp
    have hKdrop : (back_core line).drop ((back_core line).length - 4)
        = "back".data := by
      rw [hKassoc]
      have : (back_core line).length - 4 = (N ++ w2).length := by
        rw [hKlen]
        simp [List.length_append]
      rw [hKassoc] at this
      rw [this, List.drop_left]
    have hKtake : (back_core line).take ((back_core line).length - 4)
        = N ++ w2 := by
      rw [hKassoc]
      have : (back_core line).length - 4 = (N ++ w2).length := by
        rw [hKlen]
        simp [List.length_append]
      rw [hKassoc] at this
      rw [this, List.take_left]
    have hu : back_name_part line = N := by
      unfold back_name_part
      rw [hKtake]
      exact strip_trailing_append N w2 hw2 (reverse_no_ws_fixed N hN hNsp)
    unfold is_back_request_for_name
    rw [if_neg hN, if_neg (not_not_intro hpref), if_neg (by omega),
      if_neg (not_not_intro hKdrop), if_neg (by simp [hu, hN]), if_pos (by rw [hu])]

/-- Witness for claim C7: the line `C45 bob back` is accepted for `bob`. -/
theorem claim_C7_witness :
    is_back_request_for_name "C45 bob back\n".data "bob".data = 1 := by
  apply (claim_C7 "C45 bob back\n".data "bob".data (by decide) (by decide)
    (by decide) (by decide)).mpr
  exact ⟨[' '], [' '], ['\n'], by decide, by decide, by decide, by decide⟩

end Ups
